import Mathlib

/-!
# go-pinyin: dictionary loading (`config.go`) and the resolution engine

Go strings are modelled as lists of Unicode code points (`Str`).  Every
separator the loaders look for is ASCII, so on UTF-8 text splitting by code
point and splitting by byte agree.  A Go `panic` is the result `none`.
-/

namespace GoPinyin

/-- Go `string`, as the sequence of its code points. -/
abbrev Str := List Char

/-! ## The Go library functions used by `config.go` -/

/-- Go `strings.HasPrefix(s, pre)`. -/
def HasPrefix (s pre : Str) : Bool :=
  pre.isPrefixOf s

/-- Go `strings.Index(s, sep)`: the position of the first occurrence of `sep`
in `s`; `none` stands for Go's `-1`. -/
def Index : Str → Str → Option Nat
  | [], sep => if sep.isEmpty then some 0 else none
  | c :: cs, sep =>
    if sep.isPrefixOf (c :: cs) then some 0 else (Index cs sep).map (· + 1)

/-- Go `strings.Contains(s, sep)`, which is `Index(s, sep) >= 0`. -/
def Contains (s sep : Str) : Bool :=
  (Index s sep).isSome

/-- The loop of Go's `genSplit`: `n` bounds the number of cuts. -/
def genSplit (sep : Str) : Nat → Str → List Str
  | 0, s => [s]
  | n + 1, s =>
    match Index s sep with
    | none => [s]
    | some m => s.take m :: genSplit sep n (s.drop (m + sep.length))

/-- Go `strings.Split(s, sep)`.  An empty `sep` explodes `s` into its
characters; otherwise `s` is cut at every occurrence of `sep`, left to right
(`genSplit` caps the number of pieces at `len(s) + 1`). -/
def Split (s sep : Str) : List Str :=
  if sep.isEmpty then s.map (fun c => [c]) else genSplit sep s.length s

/-- Go `strings.Replace(s, old, new, n)` for a non-empty `old` and `n ≥ 0`:
the first `n` occurrences of `old` become `new`. -/
def Replace (s old new : Str) : Nat → Str
  | 0 => s
  | n + 1 =>
    match Index s old with
    | none => s
    | some m => s.take m ++ new ++ Replace (s.drop (m + old.length)) old new n
termination_by structural n => n

/-- Go `strings.Trim(s, cutset)`: leading and trailing characters that occur in
`cutset` are removed. -/
def Trim (s cutset : Str) : Str :=
  ((s.dropWhile (fun c => cutset.contains c)).reverse.dropWhile
    (fun c => cutset.contains c)).reverse

/-- The digit value `strconv.ParseUint` gives a character: `0-9`, then letters
of either case from 10 on (`lower(c) - 'a' + 10`); anything else is a syntax
error. -/
def digitVal (c : Char) : Option Nat :=
  if 48 ≤ c.toNat ∧ c.toNat ≤ 57 then some (c.toNat - 48)
  else if 97 ≤ c.toNat ∧ c.toNat ≤ 122 then some (c.toNat - 97 + 10)
  else if 65 ≤ c.toNat ∧ c.toNat ≤ 90 then some (c.toNat - 65 + 10)
  else none

/-- The digit loop of `strconv.ParseUint`: `n` is the `uint64` accumulator,
`cutoff` the least number with `cutoff * base > maxUint64`. -/
def parseUintLoop (base maxVal cutoff : Nat) : Str → Nat → Option Nat
  | [], n => some n
  | c :: cs, n =>
    match digitVal c with
    | none => none
    | some d =>
      if d ≥ base then none
      else if n ≥ cutoff then none
      else
        let n0 := (n * base) % 2 ^ 64
        let n1 := (n0 + d) % 2 ^ 64
        if n1 < n0 ∨ n1 > maxVal then none
        else parseUintLoop base maxVal cutoff cs n1

/-- Go `strconv.ParseUint(s, base, bitSize)` for an explicit base (`2..36`; the
prefix-driven base `0` is not modelled and is an error here); `none` is a
returned error (syntax, base, bit size or range).  Bit size `0` is `IntSize`,
64 on the platform modelled. -/
def ParseUint (s : Str) (base bitSize : Nat) : Option Nat :=
  if s.isEmpty then none
  else if ¬ (2 ≤ base ∧ base ≤ 36) then none
  else if bitSize > 64 then none
  else
    let bits := if bitSize = 0 then 64 else bitSize
    parseUintLoop base (2 ^ bits - 1) ((2 ^ 64 - 1) / base + 1) s 0

/-- Go's conversion `int(i)` of a `uint64` on a platform whose `int` has 64
bits: two's complement reinterpretation. -/
def int (i : Nat) : Int :=
  if i % 2 ^ 64 < 2 ^ 63 then ((i % 2 ^ 64 : Nat) : Int)
  else ((i % 2 ^ 64 : Nat) : Int) - 2 ^ 64

/-- Go `bufio.Reader.ReadString(delim)` on the unread input `rd`: the text up to
and including the first `delim`, the input left unread, and whether `io.EOF`
was hit before a `delim` was found (then the text is what was left).  The
input is a file held in memory, so no other read error occurs. -/
def ReadString (delim : Char) : Str → Str × Str × Bool
  | [] => ([], [], true)
  | c :: cs =>
    if c = delim then ([c], cs, false)
    else
      let r := ReadString delim cs
      (c :: r.1, r.2.1, r.2.2)

/-! ## `config.go` -/

/-- Go `map[K]string`: a key is absent (`none`) or bound to a string. -/
abbrev GoMap (κ : Type) := κ → Option Str

/-- The empty map, `make(map[K]string)`. -/
def GoMap.empty {κ : Type} : GoMap κ :=
  fun _ => none

/-- The assignment `m[k] = v`. -/
def GoMap.set {κ : Type} [DecidableEq κ] (m : GoMap κ) (k : κ) (v : Str) : GoMap κ :=
  fun k1 => if k1 = k then some v else m k1

/-- The body of the loop of `parsePinyinDict` for one line read by
`ReadString`: the new `PinyinDict`, or `none` when the body panics. -/
def pinyinDictLine (line : Str) (PinyinDict : GoMap Int) : Option (GoMap Int) :=
  if HasPrefix line "#".toList then some PinyinDict
  else
    (Split line "  #".toList)[0]?.bind fun part =>
    let dataSlice := Split part ": ".toList
    dataSlice[0]?.bind fun code =>
    let hexCode := Replace code "U+".toList "".toList 1
    match ParseUint hexCode 16 64 with
    | none => none
    | some i =>
      dataSlice[1]?.bind fun pinyin =>
      some (PinyinDict.set (int i) pinyin)

/-- The body of the loop of `parsePhraseDict` for one line read by
`ReadString`: the new `PhraseDict`, or `none` when the body panics. -/
def phraseDictLine (line : Str) (PhraseDict : GoMap Str) : Option (GoMap Str) :=
  if HasPrefix line "#".toList then some PhraseDict
  else
    let dataSlice := Split line ": ".toList
    dataSlice[0]?.bind fun key =>
    dataSlice[1]?.bind fun rest =>
    let pinyin := Trim rest "\n".toList
    some (PhraseDict.set key pinyin)

/-- The `for` loop both loaders share: `ReadString('\n')` until `io.EOF`, the
body run on every line read before that.  `fuel` bounds the iterations; an
iteration that does not end the loop consumes a character, so fuel above the
length of the input is never used up (`readLoop_eq_foldlM`). -/
def readLoop {σ : Type} (body : Str → σ → Option σ) : Nat → Str → σ → Option σ
  | 0, _, st => some st
  | fuel + 1, rd, st =>
    match ReadString '\n' rd with
    | (_, _, true) => some st
    | (line, rest, false) =>
      match body line st with
      | none => none
      | some st1 => readLoop body fuel rest st1

/-- The function `parsePinyinDict`, run on the contents of the opened file
(`none` when `os.Open` fails, which panics) with `PinyinDict` as it stands.
Each iteration consumes a character, so `len + 1` iterations reach `io.EOF`. -/
def parsePinyinDict (file : Option Str) (PinyinDict : GoMap Int) : Option (GoMap Int) :=
  match file with
  | none => none
  | some content => readLoop pinyinDictLine (content.length + 1) content PinyinDict

/-- The function `parsePhraseDict`, run on the contents of the opened file
(`none` when `os.Open` fails, which panics) with `PhraseDict` as it stands. -/
def parsePhraseDict (file : Option Str) (PhraseDict : GoMap Str) : Option (GoMap Str) :=
  match file with
  | none => none
  | some content => readLoop phraseDictLine (content.length + 1) content PhraseDict

/-! ## Vocabulary of the statements -/

/-- The newline-terminated lines of a file content, in order, each with its
final newline; what follows the last newline is not one of them. -/
def terminatedLines : Str → List Str
  | [] => []
  | c :: cs =>
    if c = '\n' then [c] :: terminatedLines cs
    else
      match terminatedLines cs with
      | [] => []
      | l :: ls => (c :: l) :: ls

/-- A hexadecimal digit: `0-9`, `a-f` or `A-F`. -/
def isHexDigit (c : Char) : Bool :=
  (48 ≤ c.toNat && c.toNat ≤ 57) || (97 ≤ c.toNat && c.toNat ≤ 102)
    || (65 ≤ c.toNat && c.toNat ≤ 70)

/-- The value of a hexadecimal digit. -/
def hexDigitValue (c : Char) : Nat :=
  if c.toNat ≤ 57 then c.toNat - 48
  else if c.toNat ≤ 70 then c.toNat - 55
  else c.toNat - 87

/-- The number a string of hexadecimal digits denotes. -/
def hexValue (s : Str) : Nat :=
  s.foldl (fun n c => n * 16 + hexDigitValue c) 0

/-- A valid base-16 unsigned 64-bit numeral: at least one digit, hexadecimal
digits only, and a value below `2 ^ 64`. -/
def IsHexUint64 (s : Str) : Prop :=
  s ≠ [] ∧ (∀ c ∈ s, isHexDigit c = true) ∧ hexValue s < 2 ^ 64

instance (s : Str) : Decidable (IsHexUint64 s) := by
  unfold IsHexUint64
  infer_instance

/-- The text of `s` before the first occurrence of `sep`, all of `s` when
there is none. -/
def textBefore (s sep : Str) : Str :=
  match Index s sep with
  | none => s
  | some m => s.take m

/-- The string `s` with the first occurrence of `old` removed. -/
def removeFirst (s old : Str) : Str :=
  match Index s old with
  | none => s
  | some m => s.take m ++ s.drop (m + old.length)

/-- The hex code an entry line of the per-character table is read to hold: of
the part of the line before the first `"  #"`, the text before the first
`": "`, with the first `"U+"` removed. -/
def hexCodeOf (line : Str) : Str :=
  removeFirst (textBefore (textBefore line "  #".toList) ": ".toList) "U+".toList

/-- The number of space-separated readings a phrase entry holds. -/
def readingCount (v : Str) : Nat :=
  (Split v " ".toList).length

/-- The phrase-reading length invariant: every entry holds as many
space-separated readings as its key has characters. -/
def PhraseLengthInvariant (d : GoMap Str) : Prop :=
  ∀ k v, d k = some v → readingCount v = k.length

/-- An entry line of the phrase table in the documented form
`<word>: <reading1> ... <readingN>` with `N` the character count of `<word>`. -/
def IsPhraseEntry (line : Str) : Prop :=
  ∃ word rs, line = word ++ ": ".toList ++ rs ++ "\n".toList
    ∧ Contains word ": ".toList = false ∧ Contains rs ": ".toList = false
    ∧ '\n' ∉ rs ∧ readingCount rs = word.length

/-- A non-empty reading list: a non-empty string that holds at least one
non-empty comma-separated reading. -/
def NonEmptyReadings (v : Str) : Prop :=
  v ≠ [] ∧ ∃ r ∈ Split v ",".toList, r ≠ []

instance (v : Str) : Decidable (NonEmptyReadings v) := by
  unfold NonEmptyReadings
  infer_instance

/-- The invariant of the per-character table: every key maps to a non-empty
reading list. -/
def ReadingsInvariant (d : GoMap Int) : Prop :=
  ∀ k v, d k = some v → NonEmptyReadings v

/-- An entry line of the per-character table in the documented form
`U+<HEX>: <readings>  # <comment>`, the code fitting an `int`, with a
non-empty reading list. -/
def IsPinyinEntry (line : Str) : Prop :=
  ∃ hex readings comment,
    line = "U+".toList ++ hex ++ ": ".toList ++ readings ++ "  #".toList ++ comment
        ++ "\n".toList
    ∧ hex ≠ [] ∧ (∀ c ∈ hex, isHexDigit c = true) ∧ hexValue hex < 2 ^ 63
    ∧ Contains readings ": ".toList = false ∧ Contains readings "  #".toList = false
    ∧ HasPrefix readings " #".toList = false
    ∧ NonEmptyReadings readings

/-! ## The resolution engine

`pinyin.go` is not under `src/`: what follows is modelled from the spec, with
the names `pinyin_test.go` uses. -/

/-- Modelled from the spec: the output styles of §3 (`pinyin.go` is not under
`src/`), under the names `pinyin_test.go` gives them. -/
inductive Style
  | Normal
  | Tone
  | Tone2
  | Tone3
  | Initials
  | FirstLetter
  | Finals
  | FinalsTone
  | FinalsTone2
  | FinalsTone3
  deriving DecidableEq

/-- Modelled from the spec: the resolution request `Args` of §3 (`pinyin.go` is
not under `src/`).  `Fallback = none` is "no Fallback configured". -/
structure Args where
  /-- The output mode. -/
  Style : Style
  /-- All candidate readings, or the default one only. -/
  Heteronym : Bool
  /-- The string `Slug` joins with. -/
  Separator : Str
  /-- The handler of characters absent from the dictionaries. -/
  Fallback : Option (Char → List Str)

/-- Modelled from the spec: `NewArgs()` of `pinyin.go` (not under `src/`), the
documented defaults of §6: `Style=Normal`, `Heteronym=false`, `Separator="-"`,
`Fallback=none`. -/
def NewArgs : Args :=
  ⟨Style.Normal, false, "-".toList, none⟩

/-- Modelled from the spec: the diacritic-bearing letters of the Tone Codec
(§3, §4.2; the table of `pinyin.go` is not under `src/`), each with its bare
letter and tone digit.  `TestUpdated` fixes `ń ↦ n2`, `ḿ ↦ m2` and the bare
form `v` of `ü` (`lüè ↦ lve4`). -/
def toneTable : List (Char × Char × Nat) :=
  [('ā', 'a', 1), ('á', 'a', 2), ('ǎ', 'a', 3), ('à', 'a', 4),
   ('ē', 'e', 1), ('é', 'e', 2), ('ě', 'e', 3), ('è', 'e', 4),
   ('ī', 'i', 1), ('í', 'i', 2), ('ǐ', 'i', 3), ('ì', 'i', 4),
   ('ō', 'o', 1), ('ó', 'o', 2), ('ǒ', 'o', 3), ('ò', 'o', 4),
   ('ū', 'u', 1), ('ú', 'u', 2), ('ǔ', 'u', 3), ('ù', 'u', 4),
   ('ǖ', 'v', 1), ('ǘ', 'v', 2), ('ǚ', 'v', 3), ('ǜ', 'v', 4),
   ('ń', 'n', 2), ('ň', 'n', 3), ('ǹ', 'n', 4), ('ḿ', 'm', 2)]

/-- Modelled from the spec: the bare letter and tone digit of a letter that
carries a tone diacritic, `none` for any other character (§4.2 `toneOf`;
`pinyin.go` is not under `src/`). -/
def toneMark (c : Char) : Option (Char × Nat) :=
  toneTable.lookup c

/-- Modelled from the spec: the bare form of one letter (§4.2 `stripTone`;
`pinyin.go` is not under `src/`): a toned letter loses its diacritic, `ü` is
written `v` (as `TestUpdated` has it), any other character stays. -/
def bareLetter (c : Char) : Char :=
  match toneMark c with
  | some (b, _) => b
  | none => if c = 'ü' then 'v' else c

/-- Modelled from the spec: `stripTone` of §4.2 (`pinyin.go` is not under
`src/`): the syllable with its diacritics removed. -/
def stripTone (s : Str) : Str :=
  s.map bareLetter

/-- Modelled from the spec: the tone digit of a syllable (§3, §4.2 `toneOf`;
`pinyin.go` is not under `src/`): that of its first diacritic-bearing letter,
`0` for the neutral tone. -/
def toneDigit : Str → Nat
  | [] => 0
  | c :: cs =>
    match toneMark c with
    | some (_, d) => d
    | none => toneDigit cs

/-- Modelled from the spec: `toneOf` of §4.2 (`pinyin.go` is not under `src/`):
the plain syllable and the tone digit. -/
def toneOf (s : Str) : Str × Nat :=
  (stripTone s, toneDigit s)

/-- Modelled from the spec: how a tone digit is printed (§4.2; `pinyin.go` is
not under `src/`): digit `0` is omitted. -/
def digitStr (d : Nat) : Str :=
  if d = 0 then [] else [Char.ofNat (48 + d)]

/-- Modelled from the spec: the `Tone2` rendering of §4.2 (`pinyin.go` is not
under `src/`): the plain syllable with the tone digit inserted immediately
after the letter that carried the diacritic. -/
def insertTone : Str → Str
  | [] => []
  | c :: cs =>
    match toneMark c with
    | some (b, d) => b :: (digitStr d ++ stripTone cs)
    | none => bareLetter c :: insertTone cs

/-- Modelled from the spec: `render` of §4.2 (`pinyin.go` is not under `src/`).
The styles of the initial/final family go to `finals`: the spec does not
give the rules `pinyin_test.go` needs for them (`ya ↦ ia`, `wu ↦ u`). -/
def render (finals : Style → Str → Str) : Style → Str → Str
  | Style.Normal, s => (toneOf s).1
  | Style.Tone, s => s
  | Style.Tone2, s => insertTone s
  | Style.Tone3, s => (toneOf s).1 ++ digitStr (toneOf s).2
  | Style.FirstLetter, s => ((toneOf s).1).take 1
  | st, s => finals st s

/-- Modelled from the spec: what the engine works with (§2, §9; `pinyin.go` is
not under `src/`): the two maps `config.go` loads, the Segmenter (external,
gojieba), the rendering of the initial/final styles, and the words the fast
entry point hands on untranslated (`TestLazyPinyinV1` has it keep `wechat`;
the rule is in `pinyin.go`). -/
structure Env where
  /-- The per-character table. -/
  PinyinDict : GoMap Int
  /-- The phrase table. -/
  PhraseDict : GoMap Str
  /-- The Segmenter: a text to its words, in order. -/
  cut : Str → List Str
  /-- The rendering of the initial/final styles. -/
  finals : Style → Str → Str
  /-- The words `LazyPinyinV1` emits as they are. -/
  passes : Str → Bool

/-- Modelled from the spec: the ordered reading list of a character in the
CodePoint table (§3; `pinyin.go` is not under `src/`). -/
def readingsOf (env : Env) (c : Char) : Option (List Str) :=
  (env.PinyinDict (c.toNat : Int)).map (fun v => Split v ",".toList)

/-- Modelled from the spec: §4.1 rules 2 and 3 (`pinyin.go` is not under
`src/`): the candidates of a character resolved on its own.  A known
character has its reading list, "first reading as the default pick, all
readings when heteronym mode is requested"; an unknown one has the
Fallback's sequence, "used verbatim as both default (first element) and
heteronym output (whole sequence)", and nothing when there is no Fallback. -/
def resolveChar (env : Env) (a : Args) (c : Char) : List Str :=
  match readingsOf env c with
  | some rs => if a.Heteronym then rs else rs.take 1
  | none =>
    match a.Fallback with
    | none => []
    | some f => if a.Heteronym then f c else (f c).take 1

/-- Modelled from the spec: the readings of a word that is a key of the phrase
table, one per character (§3, §7; `pinyin.go` is not under `src/`); an entry
whose reading count differs from the character count is "phrase not found". -/
def phraseReadings (env : Env) (w : Str) : Option (List Str) :=
  match env.PhraseDict w with
  | none => none
  | some p =>
    if (Split p " ".toList).length = w.length then some (Split p " ".toList) else none

/-- Modelled from the spec: §4.1 rule 1 (`pinyin.go` is not under `src/`): the
candidates of a character of a known phrase, the phrase's reading first. -/
def resolvePhraseChar (env : Env) (a : Args) (c : Char) (r : Str) : List Str :=
  if a.Heteronym then
    match readingsOf env c with
    | some rs => r :: rs.erase r
    | none => [r]
  else [r]

/-- Modelled from the spec: the Heteronym Resolver of §4.1 on one word
(`pinyin.go` is not under `src/`). -/
def resolveWord (env : Env) (a : Args) (w : Str) : List (List Str) :=
  match phraseReadings env w with
  | some rs => List.zipWith (resolvePhraseChar env a) w rs
  | none => w.map (resolveChar env a)

/-- Modelled from the spec: the Style Renderer of §4.3 on the resolver's
output (`pinyin.go` is not under `src/`): a character without candidates is
omitted, every candidate is rendered. -/
def renderAll (env : Env) (a : Args) (cands : List (List Str)) : List (List Str) :=
  (cands.filter (fun x => !x.isEmpty)).map (fun x => x.map (render env.finals a.Style))

/-- Modelled from the spec: `Pinyin(s, a)`, the full candidate form of §4.3
(`pinyin.go` is not under `src/`). -/
def Pinyin (env : Env) (s : Str) (a : Args) : List (List Str) :=
  renderAll env a ((env.cut s).map (resolveWord env a)).flatten

/-- Modelled from the spec: `LazyPinyin(s, a)`, the flattened default form of
§4.3 (`pinyin.go` is not under `src/`): the first candidate per character. -/
def LazyPinyin (env : Env) (s : Str) (a : Args) : List Str :=
  (Pinyin env s a).filterMap List.head?

/-- Go `strings.Join(elems, sep)`. -/
def Join : List Str → Str → Str
  | [], _ => []
  | [x], _ => x
  | x :: y :: rest, sep => x ++ sep ++ Join (y :: rest) sep

/-- Modelled from the spec: `Slug(s, a)`, the joined form of §4.3 (`pinyin.go`
is not under `src/`). -/
def Slug (env : Env) (s : Str) (a : Args) : Str :=
  Join (LazyPinyin env s a) a.Separator

/-- Modelled from the spec: the default reading of a character (§4.1 rules 2
and 3; `pinyin.go` is not under `src/`), `none` when neither the table nor
the Fallback resolves it. -/
def defaultOfChar (env : Env) (a : Args) (c : Char) : Option Str :=
  match readingsOf env c with
  | some rs => rs.head?
  | none =>
    match a.Fallback with
    | none => none
    | some f => (f c).head?

/-- Modelled from the spec: the per-word default lookup of the fast entry
point (§4.3; `pinyin.go` is not under `src/`). -/
def defaultOfWord (env : Env) (a : Args) (w : Str) : List Str :=
  match phraseReadings env w with
  | some rs => rs
  | none => w.filterMap (defaultOfChar env a)

/-- Modelled from the spec: `LazyPinyinV1(s, a)`, the fast entry point of §4.3
(`pinyin.go` is not under `src/`): Segmenter, then the per-word default
lookup, unresolved characters skipped.  `TestLazyPinyinV1` has it hand the
word `wechat` on, rendered in the requested style: the words `env.passes`
holds of are emitted as they are. -/
def LazyPinyinV1 (env : Env) (s : Str) (a : Args) : List Str :=
  (((env.cut s).map
      (fun w => if env.passes w then [w] else defaultOfWord env a w)).flatten).map
    (render env.finals a.Style)

/-! ## A test fixture

The dictionary files and gojieba are not under `src/`; the statements that
evaluate the engine on the inputs of `pinyin_test.go` use the stand-ins
below. -/

/-- An ASCII letter or digit. -/
def isAsciiAlnum (c : Char) : Bool :=
  (48 ≤ c.toNat && c.toNat ≤ 57) || (65 ≤ c.toNat && c.toNat ≤ 90)
    || (97 ≤ c.toNat && c.toNat ≤ 122)

/-- A stand-in for the Segmenter: a run of ASCII letters and digits is one
word, every other character is a word of its own.  `run` holds the run read
so far, reversed. -/
def testCutFrom : Str → Str → List Str
  | [], run => if run.isEmpty then [] else [run.reverse]
  | c :: cs, run =>
    if isAsciiAlnum c then testCutFrom cs (c :: run)
    else if run.isEmpty then [c] :: testCutFrom cs []
    else run.reverse :: [c] :: testCutFrom cs []

/-- An excerpt of the per-character table in the format `parsePinyinDict`
reads, for the characters of the tests. -/
def testPinyinDictFile : Str :=
  ("# test excerpt\n" ++ "U+4E2D: zhōng,zhòng  # 中\n" ++ "U+56FD: guó  # 国\n"
    ++ "U+4EBA: rén  # 人\n" ++ "U+8F6F: ruǎn  # 软\n" ++ "U+8457: zhù,zhuó,zhe  # 著\n"
    ++ "U+8BA8: tǎo  # 讨\n" ++ "U+8BBA: lùn,lún  # 论\n" ++ "U+7FA4: qún  # 群\n").toList

/-- The engine on the excerpt, as `init` sets it up: both maps empty, then the
tables loaded (the phrase table of the fixture is empty).  The words handed
on by the fast entry point are the runs of ASCII letters and digits, as
`TestLazyPinyinV1` has it for `wechat`; no statement below renders in a style
of the initial/final family, whose rendering is left as the identity. -/
def testEnv : Env where
  PinyinDict := (parsePinyinDict (some testPinyinDictFile) GoMap.empty).getD GoMap.empty
  PhraseDict := (parsePhraseDict (some []) GoMap.empty).getD GoMap.empty
  cut := fun s => testCutFrom s []
  finals := fun _ s => s
  passes := fun w => !w.isEmpty && w.all isAsciiAlnum

/-- The output `TestLazyPinyinV1` (`pinyin_test.go`) requires of
`LazyPinyinV1("wechat 软著讨论群", NewArgs())`. -/
def testLazyPinyinV1Target : List Str :=
  ["wechat".toList, "ruan".toList, "zhu".toList, "tao".toList, "lun".toList, "qun".toList]

/-! ## Reading lines -/

theorem ReadString_nil_lines (rd : Str) (h : terminatedLines rd = []) :
    (ReadString '\n' rd).2.2 = true := by
  induction rd with
  | nil => rfl
  | cons c cs ih =>
    unfold terminatedLines at h
    by_cases hc : c = '\n'
    · simp [hc] at h
    · simp only [hc, if_false] at h
      cases hl : terminatedLines cs with
      | nil => simp [ReadString, hc, ih hl]
      | cons l ls => simp [hl] at h

theorem ReadString_cons_lines (rd l : Str) (ls : List Str)
    (h : terminatedLines rd = l :: ls) :
    ∃ rest, ReadString '\n' rd = (l, rest, false) ∧ terminatedLines rest = ls
      ∧ rest.length < rd.length := by
  induction rd generalizing l ls with
  | nil => simp [terminatedLines] at h
  | cons c cs ih =>
    unfold terminatedLines at h
    by_cases hc : c = '\n'
    · simp only [hc, if_true, List.cons.injEq] at h
      refine ⟨cs, ?_, h.2, by simp⟩
      simp [ReadString, hc, h.1]
    · simp only [hc, if_false] at h
      cases hl : terminatedLines cs with
      | nil => simp [hl] at h
      | cons l1 ls1 =>
        simp only [hl, List.cons.injEq] at h
        obtain ⟨rest, h1, h2, h3⟩ := ih l1 ls1 hl
        refine ⟨rest, ?_, h.2 ▸ h2, by simp; omega⟩
        simp [ReadString, hc, h1, h.1]

theorem readLoop_eq_foldlM {σ : Type} (body : Str → σ → Option σ) (fuel : Nat) (rd : Str)
    (st : σ) (h : rd.length < fuel) :
    readLoop body fuel rd st
      = (terminatedLines rd).foldlM (fun s line => body line s) st := by
  induction fuel generalizing rd st with
  | zero => omega
  | succ n ih =>
    cases hl : terminatedLines rd with
    | nil =>
      have h1 := ReadString_nil_lines rd hl
      unfold readLoop
      rcases hr : ReadString '\n' rd with ⟨a, b, e⟩
      rw [hr] at h1
      simp only at h1
      subst h1
      simp
    | cons l ls =>
      obtain ⟨rest, h1, h2, h3⟩ := ReadString_cons_lines rd l ls hl
      unfold readLoop
      rw [h1]
      simp only [List.foldlM_cons]
      cases hb : body l st with
      | none => rfl
      | some st1 =>
        simp only []
        rw [ih rest st1 (by omega), h2]
        rfl

theorem terminatedLines_eof (t : Str) (h : '\n' ∉ t) : terminatedLines t = [] := by
  induction t with
  | nil => rfl
  | cons c cs ih =>
    simp only [List.mem_cons, not_or] at h
    simp [terminatedLines, Ne.symm h.1, ih h.2]

theorem terminatedLines_line (l rest : Str) (h : '\n' ∉ l) :
    terminatedLines (l ++ '\n' :: rest) = (l ++ ['\n']) :: terminatedLines rest := by
  induction l with
  | nil => simp [terminatedLines]
  | cons c cs ih =>
    simp only [List.mem_cons, not_or] at h
    simp [terminatedLines, Ne.symm h.1, ih h.2]

theorem parsePinyinDict_eq (content : Str) (d : GoMap Int) :
    parsePinyinDict (some content) d
      = (terminatedLines content).foldlM (fun s line => pinyinDictLine line s) d :=
  readLoop_eq_foldlM pinyinDictLine _ content d (Nat.lt_succ_self _)

theorem parsePhraseDict_eq (content : Str) (d : GoMap Str) :
    parsePhraseDict (some content) d
      = (terminatedLines content).foldlM (fun s line => phraseDictLine line s) d :=
  readLoop_eq_foldlM phraseDictLine _ content d (Nat.lt_succ_self _)

theorem parsePinyinDict_line (l rest : Str) (d : GoMap Int) (h : '\n' ∉ l) :
    parsePinyinDict (some (l ++ '\n' :: rest)) d
      = (pinyinDictLine (l ++ ['\n']) d).bind (parsePinyinDict (some rest)) := by
  rw [parsePinyinDict_eq, terminatedLines_line l rest h, List.foldlM_cons]
  cases pinyinDictLine (l ++ ['\n']) d with
  | none => rfl
  | some d1 => simp [parsePinyinDict_eq]

theorem parsePhraseDict_line (l rest : Str) (d : GoMap Str) (h : '\n' ∉ l) :
    parsePhraseDict (some (l ++ '\n' :: rest)) d
      = (phraseDictLine (l ++ ['\n']) d).bind (parsePhraseDict (some rest)) := by
  rw [parsePhraseDict_eq, terminatedLines_line l rest h, List.foldlM_cons]
  cases phraseDictLine (l ++ ['\n']) d with
  | none => rfl
  | some d1 => simp [parsePhraseDict_eq]

/-! ## `strconv.ParseUint` in base 16 -/

theorem digitVal_hex (c : Char) (h : isHexDigit c = true) :
    digitVal c = some (hexDigitValue c) ∧ hexDigitValue c < 16 := by
  simp only [isHexDigit, Bool.or_eq_true, Bool.and_eq_true, decide_eq_true_eq] at h
  unfold digitVal hexDigitValue
  rcases h with (h | h) | h
  · simp only [h, and_self, if_true, h.2]
    refine ⟨trivial, by omega⟩
  · have h1 : ¬ (48 ≤ c.toNat ∧ c.toNat ≤ 57) := by omega
    have h2 : 97 ≤ c.toNat ∧ c.toNat ≤ 122 := by omega
    have h3 : ¬ c.toNat ≤ 57 := by omega
    have h4 : ¬ c.toNat ≤ 70 := by omega
    rw [if_neg h1, if_pos h2, if_neg h3, if_neg h4]
    exact ⟨congrArg some (by omega), by omega⟩
  · have h1 : ¬ (48 ≤ c.toNat ∧ c.toNat ≤ 57) := by omega
    have h2 : ¬ (97 ≤ c.toNat ∧ c.toNat ≤ 122) := by omega
    have h2b : 65 ≤ c.toNat ∧ c.toNat ≤ 90 := by omega
    have h3 : ¬ c.toNat ≤ 57 := by omega
    have h4 : c.toNat ≤ 70 := by omega
    rw [if_neg h1, if_neg h2, if_pos h2b, if_neg h3, if_pos h4]
    exact ⟨congrArg some (by omega), by omega⟩

theorem digitVal_not_hex (c : Char) (h : isHexDigit c = false) :
    digitVal c = none ∨ ∃ d, digitVal c = some d ∧ 16 ≤ d := by
  simp only [isHexDigit, Bool.or_eq_false_iff, Bool.and_eq_false_iff, decide_eq_false_iff_not]
    at h
  unfold digitVal
  by_cases h1 : 48 ≤ c.toNat ∧ c.toNat ≤ 57
  · omega
  · by_cases h2 : 97 ≤ c.toNat ∧ c.toNat ≤ 122
    · right
      refine ⟨c.toNat - 97 + 10, by simp [h1, h2], by omega⟩
    · by_cases h3 : 65 ≤ c.toNat ∧ c.toNat ≤ 90
      · right
        refine ⟨c.toNat - 65 + 10, by simp [h1, h2, h3], by omega⟩
      · left
        simp [h1, h2, h3]

theorem foldl_hex_ge (s : Str) (n : Nat) :
    n ≤ s.foldl (fun n c => n * 16 + hexDigitValue c) n := by
  induction s generalizing n with
  | nil => exact Nat.le_refl _
  | cons c cs ih =>
    simp only [List.foldl_cons]
    exact Nat.le_trans (by omega) (ih _)

theorem parseUintLoop_hex (s : Str) (n : Nat) (hn : n < 2 ^ 64)
    (hs : ∀ c ∈ s, isHexDigit c = true) :
    parseUintLoop 16 (2 ^ 64 - 1) ((2 ^ 64 - 1) / 16 + 1) s n
      = if s.foldl (fun n c => n * 16 + hexDigitValue c) n < 2 ^ 64
        then some (s.foldl (fun n c => n * 16 + hexDigitValue c) n) else none := by
  induction s generalizing n with
  | nil =>
    simp only [parseUintLoop, List.foldl_nil]
    rw [if_pos hn]
  | cons c cs ih =>
    obtain ⟨hd, hlt⟩ := digitVal_hex c (hs c (List.mem_cons_self _ _))
    have hs1 : ∀ c ∈ cs, isHexDigit c = true := fun x hx => hs x (List.mem_cons_of_mem _ hx)
    have hge := foldl_hex_ge cs (n * 16 + hexDigitValue c)
    unfold parseUintLoop
    simp only [hd, List.foldl_cons]
    by_cases hcut : n ≥ (2 ^ 64 - 1) / 16 + 1
    · have h1 : ¬ hexDigitValue c ≥ 16 := by omega
      have h2 : ¬ (cs.foldl (fun n c => n * 16 + hexDigitValue c) (n * 16 + hexDigitValue c)
          < 2 ^ 64) := by
        norm_num at hcut ⊢
        omega
      simp only [h1, hcut, if_true, if_false, h2]
    · have h1 : ¬ hexDigitValue c ≥ 16 := by omega
      have h3 : n * 16 + hexDigitValue c < 2 ^ 64 := by
        norm_num at hcut ⊢
        omega
      have h4 : (n * 16) % 2 ^ 64 = n * 16 := Nat.mod_eq_of_lt (by omega)
      have h5 : (n * 16 + hexDigitValue c) % 2 ^ 64 = n * 16 + hexDigitValue c :=
        Nat.mod_eq_of_lt h3
      have h6 : ¬ (n * 16 + hexDigitValue c < n * 16
          ∨ n * 16 + hexDigitValue c > 2 ^ 64 - 1) := by omega
      simp only [h1, hcut, if_false, h4, h5, h6]
      exact ih _ h3 hs1

theorem parseUintLoop_not_hex (s : Str) (n : Nat) (hs : ¬ ∀ c ∈ s, isHexDigit c = true) :
    parseUintLoop 16 (2 ^ 64 - 1) ((2 ^ 64 - 1) / 16 + 1) s n = none := by
  induction s generalizing n with
  | nil => simp at hs
  | cons c cs ih =>
    unfold parseUintLoop
    by_cases hc : isHexDigit c = true
    · have hs1 : ¬ ∀ c ∈ cs, isHexDigit c = true := by
        intro h
        apply hs
        intro x hx
        rcases List.mem_cons.1 hx with rfl | hx
        · exact hc
        · exact h x hx
      obtain ⟨hd, _⟩ := digitVal_hex c hc
      simp only [hd]
      split_ifs
      · rfl
      · rfl
      · rfl
      · exact ih _ hs1
    · rcases digitVal_not_hex c (by simpa using hc) with hd | ⟨d, hd, hge⟩
      · simp [hd]
      · simp [hd, hge]

theorem ParseUint_hex (s : Str) (h : IsHexUint64 s) : ParseUint s 16 64 = some (hexValue s) := by
  obtain ⟨h1, h2, h3⟩ := h
  have hne : s.isEmpty = false := by cases s <;> simp_all
  unfold ParseUint
  simp only [hne, Bool.false_eq_true, if_false]
  norm_num
  have := parseUintLoop_hex s 0 (by norm_num) h2
  norm_num at this
  rw [this]
  unfold hexValue at h3 ⊢
  norm_num at h3
  simp [h3]

theorem ParseUint_not_hex (s : Str) (h : ¬ IsHexUint64 s) : ParseUint s 16 64 = none := by
  unfold ParseUint
  by_cases hne : s.isEmpty = true
  · simp [hne]
  · simp only [hne, Bool.false_eq_true, if_false]
    norm_num
    by_cases h2 : ∀ c ∈ s, isHexDigit c = true
    · have := parseUintLoop_hex s 0 (by norm_num) h2
      norm_num at this
      rw [this]
      have h3 : ¬ hexValue s < 2 ^ 64 := by
        intro h3
        exact h ⟨by intro h0; simp [h0] at hne, h2, h3⟩
      unfold hexValue at h3
      norm_num at h3
      simp [h3]
    · have := parseUintLoop_not_hex s 0 h2
      norm_num at this
      exact this

theorem ParseUint_isSome_iff (s : Str) : (ParseUint s 16 64).isSome = true ↔ IsHexUint64 s := by
  by_cases h : IsHexUint64 s
  · simp [ParseUint_hex s h, h]
  · simp [ParseUint_not_hex s h, h]

/-! ## `strings.Index` and `strings.Split` -/

theorem Index_cons (c : Char) (cs sep : Str) :
    Index (c :: cs) sep
      = if sep.isPrefixOf (c :: cs) then some 0 else (Index cs sep).map (· + 1) :=
  rfl

theorem Index_skip (sep a rest : Str)
    (h : ∀ t, t ≠ [] → t <:+ a → sep.isPrefixOf (t ++ rest) = false) :
    Index (a ++ rest) sep = (Index rest sep).map (· + a.length) := by
  induction a with
  | nil => simp
  | cons c cs ih =>
    have h0 := h (c :: cs) (by simp) (List.suffix_refl _)
    have ih1 := ih (fun t ht hs => h t ht (List.suffix_cons_iff.2 (Or.inr hs)))
    simp only [List.cons_append] at h0 ⊢
    rw [Index_cons, h0, ih1]
    cases Index rest sep <;> simp [Nat.add_assoc]

theorem Index_skip_ne (x : Char) (sep1 a rest : Str) (h : ∀ c ∈ a, c ≠ x) :
    Index (a ++ rest) (x :: sep1) = (Index rest (x :: sep1)).map (· + a.length) := by
  apply Index_skip
  intro t ht hs
  cases t with
  | nil => exact absurd rfl ht
  | cons c cs =>
    have hc : c ∈ a := hs.subset (List.mem_cons_self _ _)
    have := h c hc
    simp [List.isPrefixOf, Ne.symm this]

theorem Index_self (sep rest : Str) (h : sep ≠ []) : Index (sep ++ rest) sep = some 0 := by
  cases sep with
  | nil => exact absurd rfl h
  | cons c cs =>
    have : (c :: cs).isPrefixOf (c :: cs ++ rest) = true :=
      List.isPrefixOf_iff_prefix.2 (List.prefix_append _ _)
    simp only [List.cons_append] at this ⊢
    rw [Index_cons, this]
    rfl

theorem Index_none_of_Contains {s sep : Str} (h : Contains s sep = false) : Index s sep = none := by
  unfold Contains at h
  cases hi : Index s sep with
  | none => rfl
  | some m => simp [hi] at h

theorem isPrefixOf_of_Index_none (s sep t : Str) (h : Index s sep = none) (ht : t <:+ s) :
    sep.isPrefixOf t = false := by
  induction s with
  | nil =>
    have : t = [] := List.suffix_nil.1 ht
    subst this
    cases sep with
    | nil => simp [Index] at h
    | cons c cs => rfl
  | cons c cs ih =>
    unfold Index at h
    by_cases hp : sep.isPrefixOf (c :: cs) = true
    · simp [hp] at h
    · simp only [hp, Bool.false_eq_true, if_false, Option.map_eq_none'] at h
      rcases List.suffix_cons_iff.1 ht with rfl | ht1
      · exact Bool.eq_false_iff.2 hp
      · exact ih h ht1

theorem genSplit_none (sep s : Str) (n : Nat) (h : Index s sep = none) :
    genSplit sep n s = [s] := by
  cases n with
  | zero => rfl
  | succ n => simp [genSplit, h]

theorem genSplit_fuel (sep s : Str) (n m : Nat) (hsep : sep ≠ []) (hn : s.length ≤ n)
    (hm : s.length ≤ m) : genSplit sep n s = genSplit sep m s := by
  induction n generalizing m s with
  | zero =>
    have hs : s = [] := List.length_eq_zero.1 (Nat.le_zero.1 hn)
    subst hs
    have hi : Index [] sep = none := by
      cases sep with
      | nil => exact absurd rfl hsep
      | cons c cs => rfl
    rw [genSplit_none _ _ _ hi, genSplit_none _ _ _ hi]
  | succ n ih =>
    cases m with
    | zero =>
      have hs : s = [] := List.length_eq_zero.1 (Nat.le_zero.1 hm)
      subst hs
      have hi : Index [] sep = none := by
        cases sep with
        | nil => exact absurd rfl hsep
        | cons c cs => rfl
      rw [genSplit_none _ _ _ hi, genSplit_none _ _ _ hi]
    | succ m =>
      unfold genSplit
      cases hi : Index s sep with
      | none => rfl
      | some k =>
        have hpos : 0 < sep.length := List.length_pos.2 hsep
        have hlen : (s.drop (k + sep.length)).length ≤ n := by
          rw [List.length_drop]
          omega
        have hlen2 : (s.drop (k + sep.length)).length ≤ m := by
          rw [List.length_drop]
          omega
        simp only []
        rw [ih _ m hlen hlen2]

theorem genSplit_ne_nil (sep s : Str) (n : Nat) : genSplit sep n s ≠ [] := by
  cases n with
  | zero => simp [genSplit]
  | succ n =>
    unfold genSplit
    cases Index s sep <;> simp

theorem Split_of_none (s sep : Str) (hsep : sep ≠ []) (h : Index s sep = none) :
    Split s sep = [s] := by
  have : sep.isEmpty = false := by cases sep <;> simp_all
  simp [Split, this, genSplit_none sep s _ h]

theorem Split_of_some (s sep : Str) (m : Nat) (hsep : sep ≠ []) (h : Index s sep = some m) :
    Split s sep = s.take m :: genSplit sep (s.length - 1) (s.drop (m + sep.length)) := by
  have he : sep.isEmpty = false := by cases sep <;> simp_all
  cases s with
  | nil =>
    cases sep with
    | nil => exact absurd rfl hsep
    | cons c cs => simp [Index] at h
  | cons c cs =>
    simp only [Split, he, Bool.false_eq_true, if_false, List.length_cons, Nat.add_sub_cancel]
    rw [genSplit, h]

theorem Split_at (sep a rest : Str) (hsep : sep ≠ [])
    (h : Index (a ++ (sep ++ rest)) sep = some a.length) :
    ∃ n, Split (a ++ (sep ++ rest)) sep = a :: genSplit sep n rest := by
  refine ⟨(a ++ (sep ++ rest)).length - 1, ?_⟩
  rw [Split_of_some _ _ _ hsep h, List.take_left]
  congr 2
  rw [← List.append_assoc, ← List.length_append, List.drop_left]

theorem Split_head (s sep : Str) (hsep : sep ≠ []) :
    (Split s sep)[0]? = some (textBefore s sep) := by
  unfold textBefore
  cases h : Index s sep with
  | none => simp [Split_of_none s sep hsep h]
  | some m => simp [Split_of_some s sep m hsep h]

theorem Split_second (s sep : Str) (hsep : sep ≠ []) :
    ((Split s sep)[1]?).isSome = Contains s sep := by
  unfold Contains
  cases h : Index s sep with
  | none => simp [Split_of_none s sep hsep h]
  | some m =>
    rw [Split_of_some s sep m hsep h]
    have := genSplit_ne_nil sep (s.drop (m + sep.length)) (s.length - 1)
    cases hg : genSplit sep (s.length - 1) (s.drop (m + sep.length)) with
    | nil => exact absurd hg this
    | cons x xs => simp

/-! ## One entry line of the per-character table -/

theorem sep_comment_eq : "  #".toList = [' ', ' ', '#'] := rfl

theorem sep_colon_eq : ": ".toList = [':', ' '] := rfl

theorem isHexDigit_ne_of (c x : Char) (h : isHexDigit c = true) (hx : isHexDigit x = false) :
    c ≠ x := by
  rintro rfl
  simp [h] at hx

theorem no_comment_mark_after_blank (readings tail : Str)
    (h : HasPrefix readings " #".toList = false) :
    [' ', ' ', '#'].isPrefixOf (' ' :: (readings ++ ([' ', ' ', '#'] ++ tail))) = false := by
  have e : " #".toList = [' ', '#'] := rfl
  rw [HasPrefix, e] at h
  match readings, h with
  | [], _ => simp [List.isPrefixOf]
  | [r], _ => simp [List.isPrefixOf]
  | r1 :: r2 :: rs, h => simpa [List.isPrefixOf] using h

theorem no_comment_mark_straddle (readings tail t : Str)
    (h : Contains readings "  #".toList = false) (ht : t ≠ []) (hs : t <:+ readings) :
    [' ', ' ', '#'].isPrefixOf (t ++ ([' ', ' ', '#'] ++ tail)) = false := by
  have h1 := isPrefixOf_of_Index_none readings _ t (Index_none_of_Contains h) hs
  rw [sep_comment_eq] at h1
  match t, ht, h1 with
  | [x], _, _ => simp [List.isPrefixOf]
  | [x, y], _, _ => simp [List.isPrefixOf]
  | x :: y :: z :: t1, _, h1 => simpa [List.isPrefixOf] using h1

theorem Replace_code (hex : Str) : Replace ('U' :: '+' :: hex) "U+".toList "".toList 1 = hex := by
  have h := Index_self ['U', '+'] hex (by simp)
  have e : "U+".toList = ['U', '+'] := rfl
  simp only [List.cons_append, List.nil_append] at h
  simp [Replace, e, h]

theorem int_of_lt (n : Nat) (h : n < 2 ^ 63) : int n = (n : Int) := by
  have h1 : n % 2 ^ 64 = n := Nat.mod_eq_of_lt (by omega)
  unfold int
  rw [h1, if_pos h]

theorem pinyinDictLine_entry (hex readings tail : Str) (d : GoMap Int)
    (hhex : ∀ c ∈ hex, isHexDigit c = true) (hne : hex ≠ []) (hval : hexValue hex < 2 ^ 63)
    (h1 : Contains readings ": ".toList = false) (h2 : Contains readings "  #".toList = false)
    (h3 : HasPrefix readings " #".toList = false) :
    pinyinDictLine ("U+".toList ++ hex ++ ": ".toList ++ readings ++ "  #".toList ++ tail) d
      = some (d.set (hexValue hex : Int) readings) := by
  have e0 : "U+".toList = ['U', '+'] := rfl
  have e1 : "#".toList = ['#'] := rfl
  -- the part before the comment marker
  have hA : ∀ c ∈ 'U' :: '+' :: (hex ++ [':']), c ≠ ' ' := by
    intro c hc
    simp only [List.mem_cons, List.mem_append, List.mem_singleton, List.not_mem_nil,
      or_false] at hc
    rcases hc with rfl | rfl | hc | rfl
    · decide
    · decide
    · exact isHexDigit_ne_of c ' ' (hhex c hc) rfl
    · decide
  have hB : ∀ c ∈ 'U' :: '+' :: hex, c ≠ ':' := by
    intro c hc
    simp only [List.mem_cons] at hc
    rcases hc with rfl | rfl | hc
    · decide
    · decide
    · exact isHexDigit_ne_of c ':' (hhex c hc) rfl
  have hline : "U+".toList ++ hex ++ ": ".toList ++ readings ++ "  #".toList ++ tail
      = ('U' :: '+' :: (hex ++ ':' :: ' ' :: readings)) ++ ([' ', ' ', '#'] ++ tail) := by
    simp [e0, sep_colon_eq, sep_comment_eq]
  have hidx : Index (('U' :: '+' :: (hex ++ ':' :: ' ' :: readings)) ++ ([' ', ' ', '#'] ++ tail))
      [' ', ' ', '#'] = some ('U' :: '+' :: (hex ++ ':' :: ' ' :: readings)).length := by
    have e : ('U' :: '+' :: (hex ++ ':' :: ' ' :: readings)) ++ ([' ', ' ', '#'] ++ tail)
        = ('U' :: '+' :: (hex ++ [':'])) ++ (' ' :: (readings ++ ([' ', ' ', '#'] ++ tail))) := by
      simp
    rw [e, Index_skip_ne ' ' [' ', '#'] _ _ hA, Index_cons,
      no_comment_mark_after_blank readings tail h3,
      Index_skip _ readings _ (fun t ht hs => no_comment_mark_straddle readings tail t h2 ht hs),
      Index_self _ _ (by simp)]
    simp
    omega
  have hidx2 : Index (('U' :: '+' :: hex) ++ ([':', ' '] ++ readings)) [':', ' ']
      = some ('U' :: '+' :: hex).length := by
    rw [Index_skip_ne ':' [' '] _ _ hB, Index_self _ _ (by simp)]
    simp
  obtain ⟨n, hs1⟩ := Split_at [' ', ' ', '#'] _ tail (by simp) hidx
  obtain ⟨n2, hs2⟩ := Split_at [':', ' '] _ readings (by simp) hidx2
  have hr : Index readings [':', ' '] = none := Index_none_of_Contains h1
  rw [genSplit_none _ _ _ hr] at hs2
  have hpart : 'U' :: '+' :: (hex ++ ':' :: ' ' :: readings)
      = ('U' :: '+' :: hex) ++ ([':', ' '] ++ readings) := by simp
  have hpre : HasPrefix (('U' :: '+' :: (hex ++ ':' :: ' ' :: readings))
      ++ ([' ', ' ', '#'] ++ tail)) ['#'] = false := by
    simp [HasPrefix, List.isPrefixOf]
  have hparse : ParseUint hex 16 64 = some (hexValue hex) :=
    ParseUint_hex hex ⟨hne, hhex, by omega⟩
  unfold pinyinDictLine
  rw [hline, e1, hpre, sep_comment_eq, hs1, sep_colon_eq]
  simp only [Bool.false_eq_true, if_false, List.getElem?_cons_zero, Option.some_bind]
  rw [hpart, hs2]
  simp only [List.getElem?_cons_zero, Option.some_bind, Replace_code, hparse,
    List.getElem?_cons_succ, int_of_lt _ hval]

/-! ## One entry line of the phrase table -/

theorem dropWhile_of_head (p : Char → Bool) (l : Str) (h : ∀ c ∈ l, p c = false) :
    l.dropWhile p = l := by
  cases l with
  | nil => rfl
  | cons c cs => simp [List.dropWhile, h c (List.mem_cons_self _ _)]

theorem Trim_line (rs : Str) (h : '\n' ∉ rs) : Trim (rs ++ ['\n']) "\n".toList = rs := by
  have e : "\n".toList = ['\n'] := rfl
  have hp : ∀ c ∈ rs, (['\n'].contains c) = false := by
    intro c hc
    have : c ≠ '\n' := fun h0 => h (h0 ▸ hc)
    simp [this]
  have hp2 : ∀ c ∈ rs.reverse, (['\n'].contains c) = false :=
    fun c hc => hp c (List.mem_reverse.1 hc)
  unfold Trim
  rw [e]
  cases rs with
  | nil => simp [List.dropWhile]
  | cons r rs1 =>
    have h1 : (['\n'].contains r) = false := hp r (List.mem_cons_self _ _)
    have h2 : ((r :: rs1) ++ ['\n']).dropWhile (fun c => ['\n'].contains c)
        = (r :: rs1) ++ ['\n'] := by
      rw [List.cons_append]
      exact List.dropWhile_cons_of_neg (by rw [h1]; simp)
    rw [h2, List.reverse_append]
    have h3 : (['\n'].reverse ++ (r :: rs1).reverse).dropWhile (fun c => ['\n'].contains c)
        = (r :: rs1).reverse := by
      have : (['\n'].contains '\n') = true := by decide
      simp only [List.reverse_singleton, List.singleton_append, List.dropWhile, this]
      exact dropWhile_of_head _ _ hp2
    rw [h3, List.reverse_reverse]

theorem no_colon_straddle (word tail t : Str)
    (h : Contains word ": ".toList = false) (ht : t ≠ []) (hs : t <:+ word) :
    [':', ' '].isPrefixOf (t ++ ([':', ' '] ++ tail)) = false := by
  have h1 := isPrefixOf_of_Index_none word _ t (Index_none_of_Contains h) hs
  rw [sep_colon_eq] at h1
  match t, ht, h1 with
  | [x], _, _ => simp [List.isPrefixOf]
  | x :: y :: t1, _, h1 => simpa [List.isPrefixOf] using h1

theorem no_colon_before_newline (rs t : Str)
    (h : Contains rs ": ".toList = false) (ht : t ≠ []) (hs : t <:+ rs) :
    [':', ' '].isPrefixOf (t ++ ['\n']) = false := by
  have h1 := isPrefixOf_of_Index_none rs _ t (Index_none_of_Contains h) hs
  rw [sep_colon_eq] at h1
  match t, ht, h1 with
  | [x], _, _ => simp [List.isPrefixOf]
  | x :: y :: t1, _, h1 => simpa [List.isPrefixOf] using h1

theorem phraseDictLine_entry (word rs : Str) (d : GoMap Str)
    (hc : HasPrefix (word ++ ": ".toList ++ rs ++ "\n".toList) "#".toList = false)
    (hw : Contains word ": ".toList = false) (hr : Contains rs ": ".toList = false)
    (hnl : '\n' ∉ rs) :
    phraseDictLine (word ++ ": ".toList ++ rs ++ "\n".toList) d = some (d.set word rs) := by
  have e : "\n".toList = ['\n'] := rfl
  have hline : word ++ ": ".toList ++ rs ++ "\n".toList
      = word ++ ([':', ' '] ++ (rs ++ ['\n'])) := by
    simp [sep_colon_eq, e]
  have hidx : Index (word ++ ([':', ' '] ++ (rs ++ ['\n']))) [':', ' ']
      = some word.length := by
    rw [Index_skip _ word _ (fun t ht hs => no_colon_straddle word _ t hw ht hs),
      Index_self _ _ (by simp)]
    simp
  have hrest : Index (rs ++ ['\n']) [':', ' '] = none := by
    rw [Index_skip _ rs _ (fun t ht hs => no_colon_before_newline rs t hr ht hs)]
    rfl
  obtain ⟨n, hs1⟩ := Split_at [':', ' '] word (rs ++ ['\n']) (by simp) hidx
  rw [genSplit_none _ _ _ hrest] at hs1
  unfold phraseDictLine
  rw [hc]
  simp only [Bool.false_eq_true, if_false]
  rw [hline, sep_colon_eq, hs1]
  simp only [List.getElem?_cons_zero, Option.some_bind, List.getElem?_cons_succ,
    Trim_line rs hnl]

/-! ## When the body of `parsePinyinDict` panics -/

theorem Replace_one (s old : Str) : Replace s old [] 1 = removeFirst s old := by
  unfold Replace removeFirst
  cases Index s old with
  | none => rfl
  | some m => simp [Replace]

theorem pinyinDictLine_none_iff (line : Str) (d : GoMap Int)
    (hc : HasPrefix line "#".toList = false) :
    pinyinDictLine line d = none
      ↔ (¬ IsHexUint64 (hexCodeOf line)
          ∨ Contains (textBefore line "  #".toList) ": ".toList = false) := by
  have e : "".toList = [] := rfl
  unfold pinyinDictLine hexCodeOf
  rw [hc, Split_head line _ (by decide)]
  simp only [Bool.false_eq_true, if_false, Option.some_bind]
  rw [Split_head _ _ (by decide)]
  simp only [Option.some_bind, e, Replace_one]
  have h2 := Split_second (textBefore line "  #".toList) ": ".toList (by decide)
  by_cases hx : IsHexUint64
      (removeFirst (textBefore (textBefore line "  #".toList) ": ".toList) "U+".toList)
  · rw [ParseUint_hex _ hx]
    simp only [hx, not_true_eq_false, false_or]
    rw [← h2]
    cases (Split (textBefore line "  #".toList) ": ".toList)[1]? <;> simp
  · rw [ParseUint_not_hex _ hx]
    exact ⟨fun _ => Or.inl hx, fun _ => rfl⟩

/-! ## Tables -/

theorem foldlM_invariant {σ : Type} (body : σ → Str → Option σ) (Inv : σ → Prop)
    (lines : List Str) (st : σ) (hInv : Inv st)
    (hstep : ∀ line ∈ lines, ∀ s, Inv s → ∃ s1, body s line = some s1 ∧ Inv s1) :
    ∃ s1, lines.foldlM body st = some s1 ∧ Inv s1 := by
  induction lines generalizing st with
  | nil => exact ⟨st, rfl, hInv⟩
  | cons l ls ih =>
    obtain ⟨s1, h1, h2⟩ := hstep l (List.mem_cons_self _ _) st hInv
    obtain ⟨s2, h3, h4⟩ := ih s1 h2 (fun line hl => hstep line (List.mem_cons_of_mem _ hl))
    exact ⟨s2, by simp [List.foldlM_cons, h1, h3], h4⟩

theorem terminatedLines_cons (c : Char) (cs : Str) :
    terminatedLines (c :: cs)
      = if c = '\n' then [c] :: terminatedLines cs
        else
          match terminatedLines cs with
          | [] => []
          | l :: ls => (c :: l) :: ls :=
  rfl

theorem terminatedLines_append_tail (pre tail : Str)
    (hpre : pre = [] ∨ pre.getLast? = some '\n') (htail : '\n' ∉ tail) :
    terminatedLines (pre ++ tail) = terminatedLines pre := by
  induction pre with
  | nil => simp [terminatedLines, terminatedLines_eof tail htail]
  | cons c cs ih =>
    rcases hpre with hpre | hpre
    · exact absurd hpre (by simp)
    · cases cs with
      | nil =>
        simp only [List.getLast?_singleton, Option.some.injEq] at hpre
        subst hpre
        simp [terminatedLines, terminatedLines_eof tail htail]
      | cons c2 cs2 =>
        have h1 : (c2 :: cs2).getLast? = some '\n' := by
          rw [List.getLast?_cons_cons] at hpre
          exact hpre
        have ih1 := ih (Or.inr h1)
        rw [List.cons_append, terminatedLines_cons c (c2 :: cs2 ++ tail),
          terminatedLines_cons c (c2 :: cs2), ih1]

/-! ## The claims on `config.go` -/

/-- C1 (amended): a line `U+<HEX>: <readings>  # <comment>` of the per-character
table, with `<HEX>` a hexadecimal numeral below `2 ^ 63` and `<readings>`
holding neither `": "` nor `"  #"` and not beginning with `" #"`, makes
`parsePinyinDict` store `PinyinDict[value of HEX] = <readings>` exactly, leave
every other key as it was, and go on with the rest of the file. -/
theorem C1_parsePinyinDict_stores_entry (hex readings comment rest : Str) (d : GoMap Int)
    (hne : hex ≠ []) (hhex : ∀ c ∈ hex, isHexDigit c = true) (hval : hexValue hex < 2 ^ 63)
    (h1 : Contains readings ": ".toList = false) (h2 : Contains readings "  #".toList = false)
    (h3 : HasPrefix readings " #".toList = false)
    (hr : '\n' ∉ readings) (hcm : '\n' ∉ comment) :
    ∃ d1,
      pinyinDictLine
          ("U+".toList ++ hex ++ ": ".toList ++ readings ++ "  #".toList ++ comment
            ++ "\n".toList) d = some d1
      ∧ d1 (hexValue hex : Int) = some readings
      ∧ (∀ k, k ≠ (hexValue hex : Int) → d1 k = d k)
      ∧ parsePinyinDict
          (some ("U+".toList ++ hex ++ ": ".toList ++ readings ++ "  #".toList ++ comment
            ++ "\n".toList ++ rest)) d = parsePinyinDict (some rest) d1 := by
  have hline := pinyinDictLine_entry hex readings (comment ++ "\n".toList) d hhex hne hval
    h1 h2 h3
  have e : "\n".toList = ['\n'] := rfl
  have hl : '\n' ∉ "U+".toList ++ hex ++ ": ".toList ++ readings ++ "  #".toList ++ comment := by
    have hh : '\n' ∉ hex := fun hm => by
      have := hhex _ hm
      simp [isHexDigit] at this
    simp [hh, hr, hcm]
  have hfile := parsePinyinDict_line _ rest d hl
  simp only [← List.append_assoc] at hline
  refine ⟨d.set (hexValue hex : Int) readings, hline, by simp [GoMap.set], ?_, ?_⟩
  · intro k hk
    simp [GoMap.set, hk]
  · rw [e, List.append_assoc _ ['\n'] rest, List.singleton_append, hfile]
    rw [e] at hline
    rw [hline]
    rfl

/-- C1 at the line of the source comment: `U+4E2D: zhōng,zhòng  # 中`. -/
theorem C1_parsePinyinDict_stores_entry_witness :
    ∃ d1,
      pinyinDictLine
          ("U+".toList ++ "4E2D".toList ++ ": ".toList ++ "zhōng,zhòng".toList ++ "  #".toList
            ++ " 中".toList ++ "\n".toList) GoMap.empty = some d1
      ∧ d1 (hexValue "4E2D".toList : Int) = some "zhōng,zhòng".toList
      ∧ (∀ k, k ≠ (hexValue "4E2D".toList : Int) → d1 k = GoMap.empty k)
      ∧ parsePinyinDict
          (some ("U+".toList ++ "4E2D".toList ++ ": ".toList ++ "zhōng,zhòng".toList
            ++ "  #".toList ++ " 中".toList ++ "\n".toList ++ [])) GoMap.empty
          = parsePinyinDict (some []) d1 :=
  C1_parsePinyinDict_stores_entry "4E2D".toList "zhōng,zhòng".toList " 中".toList []
    GoMap.empty (by decide) (by decide) (by decide) (by decide) (by decide) (by decide)
    (by decide) (by decide)

set_option maxRecDepth 100000 in
/-- C1 as stated fails at lines of the stated form: a numeral of seventeen
digits makes the load abort; the numeral `FFFFFFFFFFFFFFFF` is stored under
the key `-1` and not under its value; a reading field that begins with
`" #"` (it holds neither `": "` nor `"  #"`) makes the load abort. -/
theorem C1_parsePinyinDict_counterexample :
    (parsePinyinDict
        (some ("U+".toList ++ "10000000000000000".toList ++ ": ".toList ++ "a".toList
          ++ "  #".toList ++ " c".toList ++ "\n".toList)) GoMap.empty).isNone = true
    ∧ ((parsePinyinDict
          (some ("U+".toList ++ "FFFFFFFFFFFFFFFF".toList ++ ": ".toList ++ "a".toList
            ++ "  #".toList ++ " c".toList ++ "\n".toList)) GoMap.empty).bind
          (fun d => d (hexValue "FFFFFFFFFFFFFFFF".toList : Int)) = none
      ∧ (parsePinyinDict
          (some ("U+".toList ++ "FFFFFFFFFFFFFFFF".toList ++ ": ".toList ++ "a".toList
            ++ "  #".toList ++ " c".toList ++ "\n".toList)) GoMap.empty).bind
          (fun d => d (-1)) = some "a".toList)
    ∧ (Contains " #a".toList ": ".toList = false ∧ Contains " #a".toList "  #".toList = false
      ∧ (parsePinyinDict
        (some ("U+".toList ++ "4E2D".toList ++ ": ".toList ++ " #a".toList
          ++ "  #".toList ++ " 中".toList ++ "\n".toList)) GoMap.empty).isNone = true) := by
  decide

/-- C2: a line `<word>: <readings>` of the phrase table that does not start with
`#`, with neither `<word>` nor the reading string holding `": "`, makes
`parsePhraseDict` store `PhraseDict[<word>]` = the reading string without the
newline, leave every other key as it was, and go on with the rest of the file. -/
theorem C2_parsePhraseDict_stores_entry (word readings rest : Str) (d : GoMap Str)
    (hc : HasPrefix (word ++ ": ".toList ++ readings ++ "\n".toList) "#".toList = false)
    (hw : Contains word ": ".toList = false) (hr : Contains readings ": ".toList = false)
    (hwn : '\n' ∉ word) (hrn : '\n' ∉ readings) :
    ∃ d1,
      phraseDictLine (word ++ ": ".toList ++ readings ++ "\n".toList) d = some d1
      ∧ d1 word = some readings
      ∧ (∀ k, k ≠ word → d1 k = d k)
      ∧ parsePhraseDict (some (word ++ ": ".toList ++ readings ++ "\n".toList ++ rest)) d
          = parsePhraseDict (some rest) d1 := by
  have hline := phraseDictLine_entry word readings d hc hw hr hrn
  have e : "\n".toList = ['\n'] := rfl
  have hl : '\n' ∉ word ++ ": ".toList ++ readings := by
    simp [hwn, hrn]
  have hfile := parsePhraseDict_line _ rest d hl
  refine ⟨d.set word readings, hline, by simp [GoMap.set], ?_, ?_⟩
  · intro k hk
    simp [GoMap.set, hk]
  · rw [e, List.append_assoc _ ['\n'] rest, List.singleton_append, hfile]
    rw [e] at hline
    rw [hline]
    rfl

/-- C2 at the line of the source comment: `街号巷哭: jiē hào xiàng kū`. -/
theorem C2_parsePhraseDict_stores_entry_witness :
    ∃ d1,
      phraseDictLine ("街号巷哭".toList ++ ": ".toList ++ "jiē hào xiàng kū".toList
          ++ "\n".toList) GoMap.empty = some d1
      ∧ d1 "街号巷哭".toList = some "jiē hào xiàng kū".toList
      ∧ (∀ k, k ≠ "街号巷哭".toList → d1 k = GoMap.empty k)
      ∧ parsePhraseDict (some ("街号巷哭".toList ++ ": ".toList ++ "jiē hào xiàng kū".toList
          ++ "\n".toList ++ [])) GoMap.empty = parsePhraseDict (some []) d1 :=
  C2_parsePhraseDict_stores_entry "街号巷哭".toList "jiē hào xiàng kū".toList [] GoMap.empty
    (by decide) (by decide) (by decide) (by decide) (by decide)

/-- C3 (amended): for a newline-terminated line that does not start with `#`,
the body of `parsePinyinDict` panics exactly when the hex code of the line is
not a valid base-16 unsigned 64-bit numeral or the part of the line before the
first `"  #"` holds no `": "`; the load of a file starting with the line runs
that body first; an empty line and a code with a `0x` prefix abort. -/
theorem C3_parsePinyinDict_abort_iff (l rest : Str) (d : GoMap Int) (hl : '\n' ∉ l)
    (hc : HasPrefix (l ++ "\n".toList) "#".toList = false) :
    (pinyinDictLine (l ++ "\n".toList) d = none
        ↔ (¬ IsHexUint64 (hexCodeOf (l ++ "\n".toList))
            ∨ Contains (textBefore (l ++ "\n".toList) "  #".toList) ": ".toList = false))
    ∧ parsePinyinDict (some (l ++ "\n".toList ++ rest)) d
        = (pinyinDictLine (l ++ "\n".toList) d).bind (parsePinyinDict (some rest))
    ∧ pinyinDictLine "\n".toList d = none
    ∧ pinyinDictLine "0x4E2D: zhōng  # 中\n".toList d = none := by
  refine ⟨pinyinDictLine_none_iff _ d hc, ?_, rfl, rfl⟩
  have e : "\n".toList = ['\n'] := rfl
  rw [e, List.append_assoc, List.singleton_append]
  exact parsePinyinDict_line l rest d hl

/-- C3 at the line `U+4E2D: zhōng,zhòng  # 中`. -/
theorem C3_parsePinyinDict_abort_iff_witness :
    (pinyinDictLine ("U+4E2D: zhōng,zhòng  # 中".toList ++ "\n".toList) GoMap.empty = none
        ↔ (¬ IsHexUint64 (hexCodeOf ("U+4E2D: zhōng,zhòng  # 中".toList ++ "\n".toList))
            ∨ Contains (textBefore ("U+4E2D: zhōng,zhòng  # 中".toList ++ "\n".toList)
                "  #".toList) ": ".toList = false))
    ∧ parsePinyinDict (some ("U+4E2D: zhōng,zhòng  # 中".toList ++ "\n".toList ++ []))
          GoMap.empty
        = (pinyinDictLine ("U+4E2D: zhōng,zhòng  # 中".toList ++ "\n".toList) GoMap.empty).bind
            (parsePinyinDict (some []))
    ∧ pinyinDictLine "\n".toList GoMap.empty = none
    ∧ pinyinDictLine "0x4E2D: zhōng  # 中\n".toList GoMap.empty = none :=
  C3_parsePinyinDict_abort_iff "U+4E2D: zhōng,zhòng  # 中".toList [] GoMap.empty (by decide)
    (by decide)

/-- C3 as stated fails at the line `U+4E2D  # 中: zhōng`: its hex code `4E2D` is
a valid numeral and the line holds a `": "`, yet the load aborts, because the
`": "` stands after the comment marker. -/
theorem C3_parsePinyinDict_counterexample :
    HasPrefix "U+4E2D  # 中: zhōng\n".toList "#".toList = false
    ∧ hexCodeOf "U+4E2D  # 中: zhōng\n".toList = "4E2D".toList
    ∧ ("4E2D".toList ≠ [] ∧ (∀ c ∈ "4E2D".toList, isHexDigit c = true)
        ∧ hexValue "4E2D".toList < 2 ^ 64)
    ∧ Contains "U+4E2D  # 中: zhōng\n".toList ": ".toList = true
    ∧ (parsePinyinDict (some "U+4E2D  # 中: zhōng\n".toList) GoMap.empty).isNone = true := by
  decide

/-- C8 (amended): `parsePhraseDict` keeps the phrase-reading length invariant
when the table keeps it: if every line of the table that is not a comment is
an entry `<word>: <reading1> ... <readingN>` with `N` the character count of
`<word>`, the load does not abort and every entry of `PhraseDict` holds as
many readings as its key has characters. -/
theorem C8_parsePhraseDict_keeps_length (content : Str) (d : GoMap Str)
    (hlines : ∀ line ∈ terminatedLines content,
      HasPrefix line "#".toList = false → IsPhraseEntry line)
    (hd : PhraseLengthInvariant d) :
    ∃ d1, parsePhraseDict (some content) d = some d1 ∧ PhraseLengthInvariant d1 := by
  rw [parsePhraseDict_eq]
  apply foldlM_invariant _ PhraseLengthInvariant _ d hd
  intro line hline s hs
  by_cases hc : HasPrefix line "#".toList = true
  · exact ⟨s, by unfold phraseDictLine; rw [if_pos hc], hs⟩
  · have hc1 : HasPrefix line "#".toList = false := by simpa using hc
    obtain ⟨word, rs, rfl, hw, hr, hn, hcount⟩ := hlines line hline hc1
    refine ⟨s.set word rs, phraseDictLine_entry word rs s hc1 hw hr hn, ?_⟩
    intro k v hkv
    unfold GoMap.set at hkv
    by_cases hk : k = word
    · rw [if_pos hk] at hkv
      cases hkv
      rw [hk]
      exact hcount
    · rw [if_neg hk] at hkv
      exact hs k v hkv

/-- C8 at the table of one line `街号巷哭: jiē hào xiàng kū`. -/
theorem C8_parsePhraseDict_keeps_length_witness :
    ∃ d1, parsePhraseDict (some "街号巷哭: jiē hào xiàng kū\n".toList) GoMap.empty = some d1
      ∧ PhraseLengthInvariant d1 :=
  C8_parsePhraseDict_keeps_length "街号巷哭: jiē hào xiàng kū\n".toList GoMap.empty
    (by
      intro line hl _
      have h : terminatedLines "街号巷哭: jiē hào xiàng kū\n".toList
          = ["街号巷哭: jiē hào xiàng kū\n".toList] := by decide
      rw [h, List.mem_singleton] at hl
      subst hl
      exact ⟨"街号巷哭".toList, "jiē hào xiàng kū".toList, by decide, by decide, by decide,
        by decide, by decide⟩)
    (by
      intro k v h
      simp [GoMap.empty] at h)

/-- C8 as stated fails: the table of one line `中国: zhōng` loads, and the
entry for the two characters `中国` holds one reading. -/
theorem C8_parsePhraseDict_counterexample :
    (parsePhraseDict (some "中国: zhōng\n".toList) GoMap.empty).bind
        (fun d => d "中国".toList) = some "zhōng".toList
    ∧ readingCount "zhōng".toList = 1 ∧ "中国".toList.length = 2 := by
  decide

/-- C9 (amended): `parsePinyinDict` keeps reading lists non-empty when the table
does: if every line of the table that is not a comment is an entry
`U+<HEX>: <readings>  # <comment>` with a non-empty reading list, the load
does not abort and every key of `PinyinDict` maps to a non-empty string whose
split on `,` holds a non-empty reading. -/
theorem C9_parsePinyinDict_keeps_nonempty (content : Str) (d : GoMap Int)
    (hlines : ∀ line ∈ terminatedLines content,
      HasPrefix line "#".toList = false → IsPinyinEntry line)
    (hd : ReadingsInvariant d) :
    ∃ d1, parsePinyinDict (some content) d = some d1 ∧ ReadingsInvariant d1 := by
  rw [parsePinyinDict_eq]
  apply foldlM_invariant _ ReadingsInvariant _ d hd
  intro line hline s hs
  by_cases hc : HasPrefix line "#".toList = true
  · exact ⟨s, by unfold pinyinDictLine; rw [if_pos hc], hs⟩
  · have hc1 : HasPrefix line "#".toList = false := by simpa using hc
    obtain ⟨hex, readings, comment, rfl, hne, hhex, hval, h1, h2, h3, hgood⟩ :=
      hlines line hline hc1
    have hentry := pinyinDictLine_entry hex readings (comment ++ "\n".toList) s hhex hne hval
      h1 h2 h3
    simp only [← List.append_assoc] at hentry
    refine ⟨s.set (hexValue hex : Int) readings, hentry, ?_⟩
    intro k v hkv
    unfold GoMap.set at hkv
    by_cases hk : k = (hexValue hex : Int)
    · rw [if_pos hk] at hkv
      cases hkv
      exact hgood
    · rw [if_neg hk] at hkv
      exact hs k v hkv

/-- C9 at the table of one line `U+4E2D: zhōng,zhòng  # 中`. -/
theorem C9_parsePinyinDict_keeps_nonempty_witness :
    ∃ d1, parsePinyinDict (some "U+4E2D: zhōng,zhòng  # 中\n".toList) GoMap.empty = some d1
      ∧ ReadingsInvariant d1 :=
  C9_parsePinyinDict_keeps_nonempty "U+4E2D: zhōng,zhòng  # 中\n".toList GoMap.empty
    (by
      intro line hl _
      have h : terminatedLines "U+4E2D: zhōng,zhòng  # 中\n".toList
          = ["U+4E2D: zhōng,zhòng  # 中\n".toList] := by decide
      rw [h, List.mem_singleton] at hl
      subst hl
      exact ⟨"4E2D".toList, "zhōng,zhòng".toList, " 中".toList, by decide, by decide,
        by decide, by decide, by decide, by decide, by decide, by decide,
        "zhōng".toList, by decide, by decide⟩)
    (by
      intro k v h
      simp [GoMap.empty] at h)

/-- C9 as stated fails: the table of one line `U+4E2D:   # 中`, whose reading
field is empty, loads without aborting and maps `0x4E2D` to the empty string. -/
theorem C9_parsePinyinDict_counterexample :
    (parsePinyinDict (some "U+4E2D:   # 中\n".toList) GoMap.empty).bind
        (fun d => d 0x4E2D) = some [] := by
  decide

/-- C10: a last line without its newline is never parsed: with `pre` empty or
ending in a newline and `tail` free of newlines, both loaders give on
`pre ++ tail` what they give on `pre`, and on `tail` alone they leave the map
as it was, without aborting. -/
theorem C10_unterminated_last_line_ignored (pre tail : Str) (dp : GoMap Int) (dq : GoMap Str)
    (hpre : pre = [] ∨ pre.getLast? = some '\n') (htail : '\n' ∉ tail) :
    parsePinyinDict (some (pre ++ tail)) dp = parsePinyinDict (some pre) dp
    ∧ parsePhraseDict (some (pre ++ tail)) dq = parsePhraseDict (some pre) dq
    ∧ parsePinyinDict (some tail) dp = some dp
    ∧ parsePhraseDict (some tail) dq = some dq := by
  refine ⟨?_, ?_, ?_, ?_⟩
  · rw [parsePinyinDict_eq, parsePinyinDict_eq, terminatedLines_append_tail pre tail hpre htail]
  · rw [parsePhraseDict_eq, parsePhraseDict_eq, terminatedLines_append_tail pre tail hpre htail]
  · rw [parsePinyinDict_eq, terminatedLines_eof tail htail]
    rfl
  · rw [parsePhraseDict_eq, terminatedLines_eof tail htail]
    rfl

/-- C10 at a table whose second entry lacks its newline, and at entries that
would abort the load had they been parsed. -/
theorem C10_unterminated_last_line_ignored_witness :
    parsePinyinDict (some ("U+4E2D: zhōng,zhòng  # 中\n".toList ++ "zzz".toList)) GoMap.empty
        = parsePinyinDict (some "U+4E2D: zhōng,zhòng  # 中\n".toList) GoMap.empty
    ∧ parsePhraseDict (some ("U+4E2D: zhōng,zhòng  # 中\n".toList ++ "zzz".toList)) GoMap.empty
        = parsePhraseDict (some "U+4E2D: zhōng,zhòng  # 中\n".toList) GoMap.empty
    ∧ parsePinyinDict (some "zzz".toList) GoMap.empty = some GoMap.empty
    ∧ parsePhraseDict (some "zzz".toList) GoMap.empty = some GoMap.empty :=
  C10_unterminated_last_line_ignored "U+4E2D: zhōng,zhòng  # 中\n".toList "zzz".toList
    GoMap.empty GoMap.empty (by decide) (by decide)

/-! ## The Tone Codec -/

theorem mem_of_lookup {β : Type} (c : Char) (v : β) (l : List (Char × β))
    (h : l.lookup c = some v) : (c, v) ∈ l := by
  induction l with
  | nil => simp [List.lookup] at h
  | cons e es ih =>
    obtain ⟨k, x⟩ := e
    by_cases hk : c = k
    · subst hk
      simp [List.lookup] at h
      simp [h]
    · have hb : (c == k) = false := by simpa using hk
      simp only [List.lookup, hb] at h
      exact List.mem_cons_of_mem _ (ih h)

theorem toneMark_digit (c b : Char) (d : Nat) (h : toneMark c = some (b, d)) :
    1 ≤ d ∧ d ≤ 4 := by
  have hm := mem_of_lookup c (b, d) toneTable h
  have hall : ∀ e ∈ toneTable, 1 ≤ e.2.2 ∧ e.2.2 ≤ 4 := by decide
  exact hall _ hm

theorem digitStr_pos (d : Nat) (h : 1 ≤ d) : digitStr d = [Char.ofNat (48 + d)] := by
  unfold digitStr
  rw [if_neg (by omega)]

theorem toneDigit_first (pre post : Str) (t b : Char) (d : Nat)
    (hpre : ∀ c ∈ pre, toneMark c = none) (ht : toneMark t = some (b, d)) :
    toneDigit (pre ++ t :: post) = d := by
  induction pre with
  | nil => simp [toneDigit, ht]
  | cons c cs ih =>
    have h1 := hpre c (List.mem_cons_self _ _)
    have e : (c :: cs) ++ t :: post = c :: (cs ++ t :: post) := rfl
    rw [e, toneDigit, h1]
    exact ih (fun x hx => hpre x (List.mem_cons_of_mem _ hx))

theorem insertTone_first (pre post : Str) (t b : Char) (d : Nat)
    (hpre : ∀ c ∈ pre, toneMark c = none) (ht : toneMark t = some (b, d)) :
    insertTone (pre ++ t :: post) = stripTone pre ++ b :: (digitStr d ++ stripTone post) := by
  induction pre with
  | nil => simp [insertTone, ht, stripTone]
  | cons c cs ih =>
    have h1 := hpre c (List.mem_cons_self _ _)
    have e : (c :: cs) ++ t :: post = c :: (cs ++ t :: post) := rfl
    rw [e, insertTone, h1]
    simp only []
    rw [ih (fun x hx => hpre x (List.mem_cons_of_mem _ hx))]
    simp [stripTone]

theorem toneDigit_neutral (s : Str) (h : ∀ c ∈ s, toneMark c = none) : toneDigit s = 0 := by
  induction s with
  | nil => rfl
  | cons c cs ih =>
    simp only [toneDigit, h c (List.mem_cons_self _ _)]
    exact ih (fun x hx => h x (List.mem_cons_of_mem _ hx))

theorem insertTone_neutral (s : Str) (h : ∀ c ∈ s, toneMark c = none) :
    insertTone s = stripTone s := by
  induction s with
  | nil => rfl
  | cons c cs ih =>
    simp only [insertTone, h c (List.mem_cons_self _ _)]
    rw [ih (fun x hx => h x (List.mem_cons_of_mem _ hx))]
    simp [stripTone]

theorem bareLetter_not_digit (c : Char) (h : toneMark c = none) (hc : c.isDigit = false) :
    (bareLetter c).isDigit = false := by
  unfold bareLetter
  rw [h]
  by_cases hu : c = 'ü'
  · simp only [hu, if_true]
    decide
  · simp only [hu, if_false]
    exact hc

/-- C5: for a syllable whose first diacritic-bearing letter `t` has the bare
letter `b` and the tone digit `d`, the digit is one of `1..4`, the `Tone3`
rendering is the `Normal` rendering followed by `d`, and the `Tone2`
rendering is the `Normal` rendering with `d` inserted right after `b`; for a
syllable without a diacritic the `Tone2` and `Tone3` renderings are the
`Normal` rendering, which holds no digit when the syllable holds none. -/
theorem C5_tone_digit_placement (finals : Style → Str → Str) (s : Str) :
    (∀ pre post t b d, s = pre ++ t :: post → (∀ c ∈ pre, toneMark c = none) →
        toneMark t = some (b, d) →
        (1 ≤ d ∧ d ≤ 4)
        ∧ render finals Style.Tone3 s = render finals Style.Normal s ++ [Char.ofNat (48 + d)]
        ∧ render finals Style.Normal s
            = render finals Style.Normal pre ++ b :: render finals Style.Normal post
        ∧ render finals Style.Tone2 s
            = render finals Style.Normal pre
                ++ b :: Char.ofNat (48 + d) :: render finals Style.Normal post)
    ∧ ((∀ c ∈ s, toneMark c = none) →
        render finals Style.Tone2 s = render finals Style.Normal s
        ∧ render finals Style.Tone3 s = render finals Style.Normal s
        ∧ ((∀ c ∈ s, c.isDigit = false) →
            ∀ c ∈ render finals Style.Normal s, c.isDigit = false)) := by
  constructor
  · intro pre post t b d hs hpre ht
    have hd := toneMark_digit t b d ht
    subst hs
    have hb : bareLetter t = b := by simp [bareLetter, ht]
    refine ⟨hd, ?_, ?_, ?_⟩
    · simp only [render, toneOf, toneDigit_first pre post t b d hpre ht, digitStr_pos d hd.1]
    · simp [render, toneOf, stripTone, hb]
    · simp only [render, toneOf, insertTone_first pre post t b d hpre ht, digitStr_pos d hd.1]
      simp
  · intro hs
    refine ⟨?_, ?_, ?_⟩
    · simp only [render, toneOf, insertTone_neutral s hs]
    · simp only [render, toneOf, toneDigit_neutral s hs, digitStr]
      simp
    · intro hdig c hc
      simp only [render, toneOf, stripTone, List.mem_map] at hc
      obtain ⟨x, hx, rfl⟩ := hc
      exact bareLetter_not_digit x (hs x hx) (hdig x hx)

set_option maxRecDepth 1000000 in
/-- C5 on the syllables of the tests: `zhōng` gives `zho1ng`, `zhong1`, `zhong`;
`ń` gives `n2`, `n2`, `n`; `a` (啊) gives `a`, `a`; `lüè` gives `lve4`. -/
theorem C5_tone_digit_placement_witness :
    (render (fun _ s => s) Style.Tone3 "zhōng".toList
        = render (fun _ s => s) Style.Normal "zhōng".toList ++ [Char.ofNat (48 + 1)]
      ∧ render (fun _ s => s) Style.Tone2 "zhōng".toList
        = render (fun _ s => s) Style.Normal "zh".toList
            ++ 'o' :: Char.ofNat (48 + 1) :: render (fun _ s => s) Style.Normal "ng".toList)
    ∧ (render (fun _ s => s) Style.Tone2 "zhōng".toList = "zho1ng".toList
      ∧ render (fun _ s => s) Style.Tone3 "zhōng".toList = "zhong1".toList
      ∧ render (fun _ s => s) Style.Normal "zhōng".toList = "zhong".toList)
    ∧ (render (fun _ s => s) Style.Tone2 "ń".toList = "n2".toList
      ∧ render (fun _ s => s) Style.Tone3 "ń".toList = "n2".toList
      ∧ render (fun _ s => s) Style.Normal "ń".toList = "n".toList)
    ∧ (render (fun _ s => s) Style.Tone2 "a".toList = "a".toList
      ∧ render (fun _ s => s) Style.Tone3 "a".toList = "a".toList)
    ∧ render (fun _ s => s) Style.Tone2 "lüè".toList = "lve4".toList := by
  have h := (C5_tone_digit_placement (fun _ s => s) "zhōng".toList).1 "zh".toList "ng".toList
    'ō' 'o' 1 (by decide) (by decide) (by decide)
  exact ⟨⟨h.2.1, h.2.2.2⟩, by decide, by decide, by decide, by decide⟩

/-! ## The resolver and the entry points -/

theorem renderAll_append (env : Env) (a : Args) (xs ys : List (List Str)) :
    renderAll env a (xs ++ ys) = renderAll env a xs ++ renderAll env a ys := by
  simp [renderAll]

theorem renderAll_single (env : Env) (a : Args) (x : List Str) :
    renderAll env a [x]
      = if x.isEmpty then [] else [x.map (render env.finals a.Style)] := by
  cases x <;> simp [renderAll]

theorem resolveWord_of_no_phrase (env : Env) (a : Args) (w : Str)
    (h : env.PhraseDict w = none) : resolveWord env a w = w.map (resolveChar env a) := by
  simp [resolveWord, phraseReadings, h]

theorem resolveChar_of_absent (env : Env) (a : Args) (c : Char)
    (h : env.PinyinDict (c.toNat : Int) = none) :
    resolveChar env a c
      = match a.Fallback with
        | none => []
        | some f => if a.Heteronym then f c else (f c).take 1 := by
  simp [resolveChar, readingsOf, h]

/-- C4 (amended): a character `c` whose code has no entry in the per-character
table, in a word `w` that is no key of the phrase table, contributes to
`Pinyin`, between what precedes it and what follows it in text order: nothing
when no Fallback is set; with a Fallback, nothing when the Fallback returns
no string, and else one element, the rendering in the requested style of the
sequence the Fallback returns, whole in Heteronym mode and cut to its first
string otherwise.  A text of such characters only gives the empty result when
no Fallback is set. -/
theorem C4_absent_character (env : Env) (a : Args) (text : Str) (before after : List Str)
    (w u v : Str) (c : Char)
    (hcut : env.cut text = before ++ w :: after) (hw : w = u ++ c :: v)
    (hphrase : env.PhraseDict w = none) (hc : env.PinyinDict (c.toNat : Int) = none) :
    Pinyin env text a
        = renderAll env a ((before.map (resolveWord env a)).flatten ++ u.map (resolveChar env a))
          ++ (match a.Fallback with
              | none => []
              | some f =>
                if (f c).isEmpty then []
                else [(if a.Heteronym then f c else (f c).take 1).map
                        (render env.finals a.Style)])
          ++ renderAll env a
              (v.map (resolveChar env a) ++ (after.map (resolveWord env a)).flatten)
    ∧ (a.Fallback = none →
        (∀ w1 ∈ env.cut text, env.PhraseDict w1 = none
          ∧ ∀ c1 ∈ w1, env.PinyinDict (c1.toNat : Int) = none) →
        Pinyin env text a = []) := by
  constructor
  · have hword : resolveWord env a w
        = u.map (resolveChar env a) ++ resolveChar env a c :: v.map (resolveChar env a) := by
      rw [resolveWord_of_no_phrase env a w hphrase, hw]
      simp
    have hsplit : ((before ++ w :: after).map (resolveWord env a)).flatten
        = ((before.map (resolveWord env a)).flatten ++ u.map (resolveChar env a))
          ++ ([resolveChar env a c]
            ++ (v.map (resolveChar env a) ++ (after.map (resolveWord env a)).flatten)) := by
      simp [hword]
    have hX : renderAll env a [resolveChar env a c]
        = (match a.Fallback with
            | none => []
            | some f =>
              if (f c).isEmpty then []
              else [(if a.Heteronym then f c else (f c).take 1).map
                      (render env.finals a.Style)]) := by
      rw [renderAll_single, resolveChar_of_absent env a c hc]
      cases hf : a.Fallback with
      | none => rfl
      | some f =>
        cases hh : a.Heteronym with
        | true => simp
        | false =>
          cases hfc : f c with
          | nil => simp
          | cons x xs => simp
    unfold Pinyin
    rw [hcut, hsplit]
    simp only [renderAll_append]
    rw [hX]
    simp only [List.append_assoc]
  · intro hf hall
    unfold Pinyin
    have hnil : ∀ ws : List Str,
        (∀ w1 ∈ ws, env.PhraseDict w1 = none
          ∧ ∀ c1 ∈ w1, env.PinyinDict (c1.toNat : Int) = none) →
        renderAll env a ((ws.map (resolveWord env a)).flatten) = [] := by
      intro ws
      induction ws with
      | nil => intro _; rfl
      | cons w1 ws ih =>
        intro h
        have h1 := h w1 (List.mem_cons_self _ _)
        have h2 := ih (fun x hx => h x (List.mem_cons_of_mem _ hx))
        rw [List.map_cons, List.flatten_cons, renderAll_append, h2, List.append_nil,
          resolveWord_of_no_phrase env a w1 h1.1]
        have hchars : ∀ cs : Str, (∀ c1 ∈ cs, env.PinyinDict (c1.toNat : Int) = none) →
            renderAll env a (cs.map (resolveChar env a)) = [] := by
          intro cs
          induction cs with
          | nil => intro _; rfl
          | cons c1 cs ihc =>
            intro hcs
            have e : (c1 :: cs).map (resolveChar env a)
                = [resolveChar env a c1] ++ cs.map (resolveChar env a) := rfl
            rw [e, renderAll_append, ihc (fun x hx => hcs x (List.mem_cons_of_mem _ hx)),
              renderAll_single, resolveChar_of_absent env a c1 (hcs c1 (List.mem_cons_self _ _)),
              hf]
            rfl
        exact hchars w1 h1.2
    exact hnil _ hall

set_option maxRecDepth 1000000 in
/-- C4 on the inputs of `TestNoneHans` and `TestFallback`: the `b` of
`中国人abc` with a Fallback that returns `la`, then both tests' outputs. -/
theorem C4_absent_character_witness :
    Pinyin testEnv "中国人abc".toList
        ⟨Style.Normal, false, [], some (fun _ => ["la".toList])⟩
      = [["zhong".toList], ["guo".toList], ["ren".toList], ["la".toList], ["la".toList],
          ["la".toList]]
    ∧ Pinyin testEnv "abc".toList NewArgs = []
    ∧ Pinyin testEnv "中国人abc".toList
        ⟨Style.Normal, true, [], some (fun _ => ["la".toList, "wo".toList])⟩
      = [["zhong".toList, "zhong".toList], ["guo".toList], ["ren".toList],
          ["la".toList, "wo".toList], ["la".toList, "wo".toList], ["la".toList, "wo".toList]] := by
  have h := (C4_absent_character testEnv
    ⟨Style.Normal, false, [], some (fun _ => ["la".toList])⟩ "中国人abc".toList
    ["中".toList, "国".toList, "人".toList] [] "abc".toList "a".toList "c".toList 'b'
    (by decide) (by decide) (by decide) (by decide)).1
  refine ⟨?_, by decide, by decide⟩
  rw [h]
  decide

set_option maxRecDepth 1000000 in
/-- C4 as stated fails: without Heteronym mode a Fallback that returns the two
strings `la`, `wo` for `b` contributes the one string `la`. -/
theorem C4_absent_character_counterexample :
    testEnv.PinyinDict (('b').toNat : Int) = none
    ∧ testEnv.PhraseDict "b".toList = none
    ∧ (fun (_ : Char) => ["la".toList, "wo".toList]) 'b' = ["la".toList, "wo".toList]
    ∧ Pinyin testEnv "b".toList
        ⟨Style.Normal, false, [], some (fun _ => ["la".toList, "wo".toList])⟩
      = [["la".toList]] := by
  decide

set_option maxRecDepth 1000000 in
/-- C6: `Slug(s, a)` is `LazyPinyin(s, a)` joined with `a.Separator`, the
separator of `NewArgs()` is `-`, and the four outputs of `TestSlug` come out
of the test fixture. -/
theorem C6_Slug_joins_LazyPinyin (env : Env) (s : Str) (a : Args) :
    Slug env s a = Join (LazyPinyin env s a) a.Separator
    ∧ NewArgs.Separator = "-".toList
    ∧ Slug testEnv "中国人".toList ⟨Style.Normal, false, ",".toList, none⟩
        = "zhong,guo,ren".toList
    ∧ Slug testEnv "中国人".toList NewArgs = "zhong-guo-ren".toList
    ∧ Slug testEnv "中国人".toList ⟨Style.Normal, false, [], none⟩ = "zhongguoren".toList
    ∧ Slug testEnv "中国人abc，,中".toList NewArgs = "zhong-guo-ren-zhong".toList :=
  ⟨rfl, rfl, by decide, by decide, by decide, by decide⟩

/-! ## The fast entry point -/

theorem filterMap_head_renderAll (env : Env) (a : Args) (cands : List (List Str)) :
    (renderAll env a cands).filterMap List.head?
      = (cands.filterMap List.head?).map (render env.finals a.Style) := by
  induction cands with
  | nil => rfl
  | cons x xs ih =>
    have e : x :: xs = [x] ++ xs := rfl
    rw [e, renderAll_append, List.filterMap_append, ih, List.filterMap_append, List.map_append,
      renderAll_single]
    cases x <;> simp

theorem head_take_one (l : List Str) : (l.take 1).head? = l.head? := by
  cases l <;> rfl

theorem head_resolveChar (env : Env) (a : Args) (c : Char) :
    (resolveChar env a c).head? = defaultOfChar env a c := by
  unfold resolveChar defaultOfChar
  cases readingsOf env c with
  | some rs => cases a.Heteronym <;> simp [head_take_one]
  | none =>
    cases a.Fallback with
    | none => rfl
    | some f => cases a.Heteronym <;> simp [head_take_one]

theorem head_resolvePhraseChar (env : Env) (a : Args) (c : Char) (r : Str) :
    (resolvePhraseChar env a c r).head? = some r := by
  unfold resolvePhraseChar
  cases a.Heteronym with
  | false => rfl
  | true => cases readingsOf env c <;> rfl

theorem filterMap_head_phrase (env : Env) (a : Args) (w : Str) (rs : List Str)
    (h : rs.length = w.length) :
    (List.zipWith (resolvePhraseChar env a) w rs).filterMap List.head? = rs := by
  induction w generalizing rs with
  | nil =>
    cases rs with
    | nil => rfl
    | cons r rs => simp at h
  | cons c cs ih =>
    cases rs with
    | nil => simp at h
    | cons r rs =>
      simp only [List.length_cons, Nat.add_right_cancel_iff] at h
      simp [List.zipWith, List.filterMap_cons, head_resolvePhraseChar, ih rs h]

theorem filterMap_head_resolveWord (env : Env) (a : Args) (w : Str) :
    (resolveWord env a w).filterMap List.head? = defaultOfWord env a w := by
  unfold resolveWord defaultOfWord
  cases hp : phraseReadings env w with
  | none =>
    simp only [List.filterMap_map]
    congr 1
    funext c
    exact head_resolveChar env a c
  | some rs =>
    have hlen : rs.length = w.length := by
      unfold phraseReadings at hp
      cases hd : env.PhraseDict w with
      | none => simp [hd] at hp
      | some p =>
        simp only [hd] at hp
        split_ifs at hp with hl
        cases hp
        exact hl
    exact filterMap_head_phrase env a w rs hlen

theorem filterMap_head_words (env : Env) (a : Args) (ws : List Str) :
    ((ws.map (resolveWord env a)).flatten).filterMap List.head?
      = (ws.map (defaultOfWord env a)).flatten := by
  induction ws with
  | nil => rfl
  | cons w ws ih =>
    simp only [List.map_cons, List.flatten_cons, List.filterMap_append, ih,
      filterMap_head_resolveWord]

/-- C7 (amended): on a text none of whose words the fast entry point hands on
untranslated, `LazyPinyinV1(text, NewArgs())` returns the same sequence as
`LazyPinyin(text, NewArgs())`. -/
theorem C7_LazyPinyinV1_eq_LazyPinyin (env : Env) (text : Str)
    (h : ∀ w ∈ env.cut text, env.passes w = false) :
    LazyPinyinV1 env text NewArgs = LazyPinyin env text NewArgs := by
  unfold LazyPinyinV1 LazyPinyin Pinyin
  rw [filterMap_head_renderAll, filterMap_head_words]
  congr 2
  apply List.map_congr_left
  intro w hw
  simp [h w hw]

set_option maxRecDepth 1000000 in
/-- C7 on `中国人`: both entry points give `zhong`, `guo`, `ren`. -/
theorem C7_LazyPinyinV1_eq_LazyPinyin_witness :
    LazyPinyinV1 testEnv "中国人".toList NewArgs = LazyPinyin testEnv "中国人".toList NewArgs
    ∧ LazyPinyin testEnv "中国人".toList NewArgs
      = ["zhong".toList, "guo".toList, "ren".toList] :=
  ⟨C7_LazyPinyinV1_eq_LazyPinyin testEnv "中国人".toList (by decide), by decide⟩

set_option maxRecDepth 1000000 in
/-- C7 as stated fails at the input of `TestLazyPinyinV1`: the fast entry point
returns the sequence the test requires, which starts with `wechat`, and the
full path drops that word. -/
theorem C7_LazyPinyinV1_counterexample :
    LazyPinyinV1 testEnv "wechat 软著讨论群".toList NewArgs = testLazyPinyinV1Target
    ∧ LazyPinyin testEnv "wechat 软著讨论群".toList NewArgs
      = ["ruan".toList, "zhu".toList, "tao".toList, "lun".toList, "qun".toList]
    ∧ LazyPinyinV1 testEnv "wechat 软著讨论群".toList NewArgs
      ≠ LazyPinyin testEnv "wechat 软著讨论群".toList NewArgs := by
  decide

end GoPinyin
